import Mathlib

/-
Verification of the pyre feature-algebra core (src/pyre.py).

A Phoneme wraps a Python dict from feature names to Boolean signs; dicts are
modelled as insertion-ordered association lists with pairwise-distinct keys.
The implication store (the module-level `constraints` dict of pyre.py) is
modelled as an ordered list of (antecedent, consequent) pairs, and
`add_constraint` is translated as a functional scan over that list.
-/

abbrev Feat := String

abbrev FeatMap := List (Feat × Bool)

/-- Keys of a feature dictionary, in insertion order. -/
def keysF (m : FeatMap) : List Feat :=
  m.map Prod.fst

theorem keysF_nil : keysF [] = [] := rfl

theorem keysF_cons (e : Feat × Bool) (rest : FeatMap) :
    keysF (e :: rest) = e.1 :: keysF rest := rfl

theorem mem_keysF_of_mem {m : FeatMap} {f : Feat} {s : Bool}
    (h : (f, s) ∈ m) : f ∈ keysF m :=
  List.mem_map_of_mem Prod.fst h

/-- Python dict lookup `m[f]` as used through Phoneme.__getitem__: the sign of
the first (with distinct keys: the only) entry for feature f, or none. -/
def lookupF : FeatMap → Feat → Option Bool
  | [], _ => none
  | e :: rest, f => if e.1 = f then some e.2 else lookupF rest f

/-- Python dict item assignment: replace the value in place if the key is
present, otherwise append the new pair at the end (insertion order). -/
def setF : FeatMap → Feat → Bool → FeatMap
  | [], f, b => [(f, b)]
  | e :: rest, f, b => if e.1 = f then (e.1, b) :: rest else e :: setF rest f b

/-- Python dict.update: fold item assignment over the other map's items. -/
def updF (m o : FeatMap) : FeatMap :=
  o.foldl (fun acc x => setF acc x.1 x.2) m

theorem updF_cons (m : FeatMap) (x : Feat × Bool) (o : FeatMap) :
    updF m (x :: o) = updF (setF m x.1 x.2) o := rfl

theorem lookupF_setF {m : FeatMap} {g f : Feat} {b : Bool} :
    lookupF (setF m g b) f = if g = f then some b else lookupF m f := by
  induction m with
  | nil => simp [setF, lookupF]
  | cons e rest ih =>
    by_cases heg : e.1 = g
    · by_cases hgf : g = f
      · simp [setF, heg, lookupF, heg.trans hgf, hgf]
      · have hef : e.1 ≠ f := by rw [heg]; exact hgf
        simp [setF, heg, lookupF, hef, hgf]
    · by_cases hef : e.1 = f
      · have hgf : g ≠ f := by
          intro hh
          exact heg (by rw [hh, ← hef])
        simp [setF, heg, lookupF, hgf, Ne.symm hgf, hef]
      · simp [setF, heg, lookupF, hef, ih]

theorem mem_keysF_setF {m : FeatMap} {f a : Feat} {b : Bool}
    (h : a ∈ keysF (setF m f b)) : a ∈ keysF m ∨ a = f := by
  induction m with
  | nil =>
    simp [setF, keysF] at h
    exact Or.inr h
  | cons e rest ih =>
    by_cases hef : e.1 = f
    · simp only [setF, if_pos hef] at h
      rw [keysF_cons] at h ⊢
      exact Or.inl h
    · simp only [setF, if_neg hef] at h
      rw [keysF_cons] at h ⊢
      rcases List.mem_cons.mp h with h1 | h1
      · exact Or.inl (List.mem_cons.mpr (Or.inl h1))
      · rcases ih h1 with h2 | h2
        · exact Or.inl (List.mem_cons.mpr (Or.inr h2))
        · exact Or.inr h2

theorem nodup_keysF_setF {m : FeatMap} {f : Feat} {b : Bool}
    (h : (keysF m).Nodup) : (keysF (setF m f b)).Nodup := by
  induction m with
  | nil => simp [setF, keysF]
  | cons e rest ih =>
    rw [keysF_cons, List.nodup_cons] at h
    by_cases hef : e.1 = f
    · simp only [setF, if_pos hef]
      rw [keysF_cons, List.nodup_cons]
      exact h
    · simp only [setF, if_neg hef]
      rw [keysF_cons, List.nodup_cons]
      refine ⟨?_, ih h.2⟩
      intro hmem
      rcases mem_keysF_setF hmem with h1 | h1
      · exact h.1 h1
      · exact hef h1

theorem nodup_keysF_updF {o m : FeatMap}
    (h : (keysF m).Nodup) : (keysF (updF m o)).Nodup := by
  induction o generalizing m with
  | nil => simpa [updF] using h
  | cons x o ih =>
    rw [updF_cons]
    exact ih (nodup_keysF_setF h)

/-- A phoneme: a partial map from features to Boolean signs, backed by a dict
(insertion-ordered list with pairwise-distinct keys). -/
structure Phoneme where
  features : FeatMap
  wf : (keysF features).Nodup

instance : DecidableEq Phoneme := fun p q =>
  match p, q with
  | ⟨f1, _⟩, ⟨f2, _⟩ =>
    if h : f1 = f2 then isTrue (by cases h; rfl)
    else isFalse (by intro hh; cases hh; exact h rfl)

/-- Test of one signed feature against an optional stored sign: the body of the
loop of Phoneme.issubset (present with the same sign). -/
def signMatches (o : Option Bool) (s : Bool) : Bool :=
  match o with
  | some t => s == t
  | none => false

/-- Test of one signed feature against an optional stored sign: the body of the
loops of Phoneme.contradicts and Phoneme.contradictsi (present with a
different sign). -/
def signConflicts (o : Option Bool) (s : Bool) : Bool :=
  match o with
  | some t => !(s == t)
  | none => false

/-- Phoneme.issubset: every feature of this phoneme appears in the other with
the same sign. -/
def Phoneme.issubset (p q : Phoneme) : Bool :=
  p.features.all (fun x => signMatches (lookupF q.features x.1) x.2)

/-- Phoneme.__le__: for Phoneme arguments the isinstance test is true and the
comparison is issubset. -/
def Phoneme.le (p q : Phoneme) : Bool :=
  p.issubset q

/-- Phoneme.__eq__ restricted to Phoneme arguments: equal number of features
and the one a subset of the other. -/
def Phoneme.eqb (p q : Phoneme) : Bool :=
  (p.features.length == q.features.length) && p.issubset q

/-- Phoneme.contradicts: some feature of this phoneme appears in the other
with a different sign. -/
def Phoneme.contradicts (p q : Phoneme) : Bool :=
  p.features.any (fun x => signConflicts (lookupF q.features x.1) x.2)

/-- Phoneme.contradictsi: some feature of this phoneme appears in a raw signed
feature dictionary with a different sign. -/
def Phoneme.contradictsi (p : Phoneme) (features : FeatMap) : Bool :=
  p.features.any (fun x => signConflicts (lookupF features x.1) x.2)

/-- Phoneme.update: add another phoneme's signed features via dict.update,
overwriting in case of conflict. -/
def Phoneme.update (p q : Phoneme) : Phoneme :=
  ⟨updF p.features q.features, nodup_keysF_updF p.wf⟩

/-- Phoneme.edit: add another phoneme's signed features, unless any contradict;
in the contradicting case only a warning is written to stderr and the phoneme
is returned unchanged. -/
def Phoneme.edit (p q : Phoneme) : Phoneme :=
  if p.contradicts q then p else p.update q

theorem signMatches_iff {o : Option Bool} {s : Bool} :
    signMatches o s = true ↔ o = some s := by
  cases o with
  | none => simp [signMatches]
  | some t =>
    constructor
    · intro h
      have hst : s = t := by simpa [signMatches] using h
      rw [hst]
    · intro h
      have hts : t = s := Option.some.inj h
      simp [signMatches, hts]

theorem signConflicts_iff {o : Option Bool} {s : Bool} :
    signConflicts o s = true ↔ ∃ t, o = some t ∧ s ≠ t := by
  cases o with
  | none => simp [signConflicts]
  | some t => simp [signConflicts]

theorem lookupF_eq_some_of_mem {m : FeatMap} {f : Feat} {s : Bool}
    (hnd : (keysF m).Nodup) (hmem : (f, s) ∈ m) : lookupF m f = some s := by
  induction m with
  | nil => simp at hmem
  | cons e rest ih =>
    rw [keysF_cons, List.nodup_cons] at hnd
    rcases List.mem_cons.mp hmem with h | h
    · subst h
      simp [lookupF]
    · by_cases hef : e.1 = f
      · exfalso
        apply hnd.1
        rw [hef]
        exact mem_keysF_of_mem h
      · simp [lookupF, hef]
        exact ih hnd.2 h

theorem mem_of_lookupF {m : FeatMap} {f : Feat} {s : Bool}
    (h : lookupF m f = some s) : (f, s) ∈ m := by
  induction m with
  | nil => simp [lookupF] at h
  | cons e rest ih =>
    by_cases hef : e.1 = f
    · obtain ⟨a, b⟩ := e
      simp at hef
      subst hef
      simp [lookupF] at h
      subst h
      exact List.mem_cons_self _ _
    · simp [lookupF, hef] at h
      exact List.mem_cons_of_mem _ (ih h)

theorem lookupF_eq_none_of_not_mem {m : FeatMap} {f : Feat}
    (h : f ∉ keysF m) : lookupF m f = none := by
  induction m with
  | nil => simp [lookupF]
  | cons e rest ih =>
    rw [keysF_cons] at h
    simp at h
    have hef : e.1 ≠ f := fun hh => h.1 hh.symm
    simp [lookupF, hef]
    exact ih h.2

theorem issubset_iff {p q : Phoneme} :
    p.issubset q = true ↔ ∀ x ∈ p.features, lookupF q.features x.1 = some x.2 := by
  unfold Phoneme.issubset
  rw [List.all_eq_true]
  constructor
  · intro h x hx
    exact signMatches_iff.mp (h x hx)
  · intro h x hx
    exact signMatches_iff.mpr (h x hx)

theorem le_iff {p q : Phoneme} :
    p.le q = true ↔ ∀ x ∈ p.features, lookupF q.features x.1 = some x.2 :=
  issubset_iff

theorem contradicts_iff {p q : Phoneme} :
    p.contradicts q = true ↔
      ∃ f s t, lookupF p.features f = some s ∧ lookupF q.features f = some t ∧ s ≠ t := by
  constructor
  · intro h
    rcases List.any_eq_true.mp h with ⟨x, hx, hc⟩
    rcases signConflicts_iff.mp hc with ⟨t, hq, hst⟩
    exact ⟨x.1, x.2, t, lookupF_eq_some_of_mem p.wf hx, hq, hst⟩
  · rintro ⟨f, s, t, hp, hq, hst⟩
    apply List.any_eq_true.mpr
    exact ⟨(f, s), mem_of_lookupF hp, signConflicts_iff.mpr ⟨t, hq, hst⟩⟩

theorem Phoneme.le_refl (p : Phoneme) : p.le p = true :=
  le_iff.mpr (fun x hx => lookupF_eq_some_of_mem p.wf hx)

theorem Phoneme.le_trans {p q r : Phoneme}
    (hpq : p.le q = true) (hqr : q.le r = true) : p.le r = true := by
  apply le_iff.mpr
  intro x hx
  have h1 := le_iff.mp hpq x hx
  exact le_iff.mp hqr x (mem_of_lookupF h1)

theorem Phoneme.le_antisymm_eqb {p q : Phoneme}
    (hpq : p.le q = true) (hqp : q.le p = true) : p.eqb q = true := by
  have hsub : p.features ⊆ q.features := by
    intro x hx
    exact mem_of_lookupF (le_iff.mp hpq x hx)
  have hsub2 : q.features ⊆ p.features := by
    intro x hx
    exact mem_of_lookupF (le_iff.mp hqp x hx)
  have hndk : (p.features.map Prod.fst).Nodup := p.wf
  have hndk2 : (q.features.map Prod.fst).Nodup := q.wf
  have hnd : p.features.Nodup := List.Nodup.of_map _ hndk
  have hnd2 : q.features.Nodup := List.Nodup.of_map _ hndk2
  have hle1 : p.features.length ≤ q.features.length :=
    (List.subperm_of_subset hnd hsub).length_le
  have hle2 : q.features.length ≤ p.features.length :=
    (List.subperm_of_subset hnd2 hsub2).length_le
  have hlen : p.features.length = q.features.length := Nat.le_antisymm hle1 hle2
  simp [Phoneme.eqb, hlen]
  exact hpq

theorem le_of_eqb {p q : Phoneme} (h : p.eqb q = true) : p.le q = true := by
  simp [Phoneme.eqb] at h
  exact h.2

theorem lookupF_updF_of_none {o m : FeatMap} {f : Feat}
    (h : lookupF o f = none) : lookupF (updF m o) f = lookupF m f := by
  induction o generalizing m with
  | nil => simp [updF]
  | cons x o ih =>
    by_cases hxf : x.1 = f
    · simp [lookupF, hxf] at h
    · have ho : lookupF o f = none := by simpa [lookupF, hxf] using h
      rw [updF_cons, ih ho, lookupF_setF]
      simp [hxf]

theorem lookupF_updF_of_some {o m : FeatMap} {f : Feat} {b : Bool}
    (ho : (keysF o).Nodup) (h : lookupF o f = some b) :
    lookupF (updF m o) f = some b := by
  induction o generalizing m with
  | nil => simp [lookupF] at h
  | cons x o ih =>
    rw [keysF_cons, List.nodup_cons] at ho
    rw [updF_cons]
    by_cases hxf : x.1 = f
    · have hb : x.2 = b := by
        simp [lookupF, hxf] at h
        exact h
      have habs : lookupF o f = none := by
        apply lookupF_eq_none_of_not_mem
        rw [← hxf]
        exact ho.1
      rw [lookupF_updF_of_none habs, lookupF_setF]
      simp [hxf, hb]
    · have h2 : lookupF o f = some b := by simpa [lookupF, hxf] using h
      exact ih ho.2 h2

theorem le_update_self (p v : Phoneme) : v.le (p.update v) = true := by
  apply le_iff.mpr
  intro x hx
  exact lookupF_updF_of_some v.wf (lookupF_eq_some_of_mem v.wf hx)


theorem band_iff {a b : Bool} : (a && b) = true ↔ a = true ∧ b = true :=
  Bool.and_eq_true_iff

theorem not_true_of_false {b : Bool} (h : b = false) : ¬(b = true) := by
  simp [h]

/-- The implication store: the module-level `constraints` dict of pyre.py,
as an insertion-ordered list of (antecedent, consequent) pairs. -/
abbrev Store := List (Phoneme × Phoneme)

/-- The dominance scan of add_constraint: walk the existing rules in order;
if an existing rule has a broader-or-equal antecedent and a stronger-or-equal
consequent, stop with worthwhile = false (the Python break), keeping the rest
of the store intact; if the new rule dominates an existing one, drop that rule
and keep scanning.  Returns (worthwhile, store after the scan). -/
def scanStore (key value : Phoneme) : Store → Bool × Store
  | [] => (true, [])
  | e :: rest =>
    if e.1.le key && value.le e.2 then (false, e :: rest)
    else if key.le e.1 && e.2.le value then scanStore key value rest
    else ((scanStore key value rest).1, e :: (scanStore key value rest).2)

/-- In-place edit of the consequent stored under an antecedent equal (by
Phoneme.__eq__) to the probe key: `constraints[key].edit(value)`. -/
def editStore (key value : Phoneme) : Store → Store
  | [] => []
  | e :: rest =>
    if e.1.eqb key then (e.1, e.2.edit value) :: rest
    else e :: editStore key value rest

/-- Python `key in constraints`: some stored antecedent equals the probe key
under Phoneme.__eq__. -/
def hasKey (cs : Store) (key : Phoneme) : Bool :=
  cs.any (fun e => e.1.eqb key)

/-- add_constraint of pyre.py: reject a self-contradicting rule; otherwise run
the dominance scan; if it did not abort, merge the consequent into an existing
rule with an equal antecedent, or append the new pair. -/
def add_constraint (key value : Phoneme) (cs : Store) : Store :=
  if key.contradicts value then cs
  else
    if (scanStore key value cs).1 then
      if hasKey (scanStore key value cs).2 key then
        editStore key value (scanStore key value cs).2
      else (scanStore key value cs).2 ++ [(key, value)]
    else (scanStore key value cs).2

/-- Rule x dominates rule y when x has a broader-or-equal antecedent and a
stronger-or-equal consequent. -/
def dominates (x y : Phoneme × Phoneme) : Bool :=
  x.1.le y.1 && y.2.le x.2

/-- The minimal-cover invariant claimed by the spec for the implication store:
no stored rule is dominated by another (distinct) stored rule. -/
def MinimalCover (cs : Store) : Prop :=
  cs.Pairwise (fun x y => dominates x y = false ∧ dominates y x = false)

instance (cs : Store) : Decidable (MinimalCover cs) :=
  List.instDecidablePairwise cs

theorem scan_sublist (k v : Phoneme) (cs : Store) :
    (scanStore k v cs).2.Sublist cs := by
  induction cs with
  | nil => simp [scanStore]
  | cons e rest ih =>
    by_cases h2a : (e.1.le k && v.le e.2) = true
    · simp only [scanStore, if_pos h2a]
      exact List.Sublist.refl _
    · by_cases h2b : (k.le e.1 && e.2.le v) = true
      · simp only [scanStore, if_neg h2a, if_pos h2b]
        exact ih.cons e
      · simp only [scanStore, if_neg h2a, if_neg h2b]
        exact ih.cons₂ e

theorem scan_mem {k v : Phoneme} {cs : Store} {e : Phoneme × Phoneme}
    (h : e ∈ (scanStore k v cs).2) : e ∈ cs :=
  (scan_sublist k v cs).subset h

theorem scan_true_mem {k v : Phoneme} {cs : Store}
    (h : (scanStore k v cs).1 = true) :
    ∀ e ∈ (scanStore k v cs).2,
      (e.1.le k && v.le e.2) = false ∧ (k.le e.1 && e.2.le v) = false := by
  induction cs with
  | nil => simp [scanStore]
  | cons e rest ih =>
    by_cases h2a : (e.1.le k && v.le e.2) = true
    · simp only [scanStore, if_pos h2a] at h
      exact absurd h (by simp)
    · by_cases h2b : (k.le e.1 && e.2.le v) = true
      · simp only [scanStore, if_neg h2a, if_pos h2b] at h ⊢
        exact ih h
      · simp only [scanStore, if_neg h2a, if_neg h2b] at h ⊢
        intro x hx
        rcases List.mem_cons.mp hx with hx1 | hx1
        · subst hx1
          exact ⟨Bool.eq_false_iff.mpr h2a, Bool.eq_false_iff.mpr h2b⟩
        · exact ih h x hx1

theorem scan_false_exists {k v : Phoneme} {cs : Store}
    (h : (scanStore k v cs).1 = false) :
    ∃ e ∈ cs, e.1.le k = true ∧ v.le e.2 = true := by
  induction cs with
  | nil => simp [scanStore] at h
  | cons e rest ih =>
    by_cases h2a : (e.1.le k && v.le e.2) = true
    · rcases band_iff.mp h2a with ⟨ha, hb⟩
      exact ⟨e, List.mem_cons_self _ _, ha, hb⟩
    · by_cases h2b : (k.le e.1 && e.2.le v) = true
      · simp only [scanStore, if_neg h2a, if_pos h2b] at h
        rcases ih h with ⟨x, hx, hc⟩
        exact ⟨x, List.mem_cons_of_mem _ hx, hc⟩
      · simp only [scanStore, if_neg h2a, if_neg h2b] at h
        rcases ih h with ⟨x, hx, hc⟩
        exact ⟨x, List.mem_cons_of_mem _ hx, hc⟩

theorem scan_true_of_no_subsumer {k v : Phoneme} {cs : Store}
    (h : ∀ e ∈ cs, ¬(e.1.le k = true ∧ v.le e.2 = true)) :
    (scanStore k v cs).1 = true := by
  cases hs : (scanStore k v cs).1 with
  | true => rfl
  | false =>
    exfalso
    rcases scan_false_exists hs with ⟨e, he, hc⟩
    exact h e he hc

theorem scan_false_of_subsumer {k v : Phoneme} {cs : Store}
    {e : Phoneme × Phoneme} (he : e ∈ cs)
    (h1 : e.1.le k = true) (h2 : v.le e.2 = true) :
    (scanStore k v cs).1 = false := by
  induction cs with
  | nil => simp at he
  | cons x rest ih =>
    by_cases h2a : (x.1.le k && v.le x.2) = true
    · simp only [scanStore, if_pos h2a]
    · have hxe : e ∈ rest := by
        rcases List.mem_cons.mp he with h | h
        · exfalso
          apply h2a
          rw [← h]
          exact band_iff.mpr ⟨h1, h2⟩
        · exact h
      by_cases h2b : (k.le x.1 && x.2.le v) = true
      · simp only [scanStore, if_neg h2a, if_pos h2b]
        exact ih hxe
      · simp only [scanStore, if_neg h2a, if_neg h2b]
        exact ih hxe

theorem scan_stable {k v : Phoneme} {cs : Store}
    (h : ∀ e ∈ cs, (e.1.le k && v.le e.2) = false ∧ (k.le e.1 && e.2.le v) = false) :
    scanStore k v cs = (true, cs) := by
  induction cs with
  | nil => simp [scanStore]
  | cons e rest ih =>
    have he := h e (List.mem_cons_self _ _)
    simp only [scanStore, if_neg (not_true_of_false he.1), if_neg (not_true_of_false he.2)]
    rw [ih (fun x hx => h x (List.mem_cons_of_mem _ hx))]

theorem scan_upto_break {k v : Phoneme} {P R : Store} {a : Phoneme × Phoneme}
    (hP : ∀ e ∈ P, (e.1.le k && v.le e.2) = false ∧ (k.le e.1 && e.2.le v) = false)
    (ha : (a.1.le k && v.le a.2) = true) :
    scanStore k v (P ++ a :: R) = (false, P ++ a :: R) := by
  induction P with
  | nil =>
    simp only [List.nil_append]
    simp only [scanStore, if_pos ha]
  | cons p P ih =>
    have hp := hP p (List.mem_cons_self _ _)
    rw [List.cons_append]
    simp only [scanStore, if_neg (not_true_of_false hp.1), if_neg (not_true_of_false hp.2)]
    rw [ih (fun x hx => hP x (List.mem_cons_of_mem _ hx))]

theorem scan_break_rescan {k v : Phoneme} {cs : Store}
    (h : (scanStore k v cs).1 = false) :
    scanStore k v ((scanStore k v cs).2) = (false, (scanStore k v cs).2) := by
  induction cs with
  | nil => simp [scanStore] at h
  | cons e rest ih =>
    by_cases h2a : (e.1.le k && v.le e.2) = true
    · simp only [scanStore, if_pos h2a]
    · by_cases h2b : (k.le e.1 && e.2.le v) = true
      · simp only [scanStore, if_neg h2a, if_pos h2b] at h ⊢
        exact ih h
      · simp only [scanStore, if_neg h2a, if_neg h2b] at h ⊢
        have hr := ih h
        rw [hr]

theorem scan_minimal_break {k v : Phoneme} {cs : Store}
    (hmin : MinimalCover cs) (h : (scanStore k v cs).1 = false) :
    (scanStore k v cs).2 = cs := by
  induction cs with
  | nil => simp [scanStore]
  | cons e rest ih =>
    rcases List.pairwise_cons.mp hmin with ⟨hhead, htail⟩
    by_cases h2a : (e.1.le k && v.le e.2) = true
    · simp only [scanStore, if_pos h2a]
    · by_cases h2b : (k.le e.1 && e.2.le v) = true
      · exfalso
        simp only [scanStore, if_neg h2a, if_pos h2b] at h
        rcases scan_false_exists h with ⟨x, hx, hx1, hx2⟩
        rcases band_iff.mp h2b with ⟨hb1, hb2⟩
        have hdom : dominates x e = true :=
          band_iff.mpr ⟨Phoneme.le_trans hx1 hb1, Phoneme.le_trans hb2 hx2⟩
        have hfalse := (hhead x hx).2
        rw [hdom] at hfalse
        exact Bool.true_eq_false.mp hfalse
      · simp only [scanStore, if_neg h2a, if_neg h2b] at h ⊢
        rw [ih htail h]

theorem hasKey_split {cs : Store} {key : Phoneme} (h : hasKey cs key = true) :
    ∃ P a R, cs = P ++ a :: R ∧ a.1.eqb key = true ∧ ∀ x ∈ P, x.1.eqb key = false := by
  induction cs with
  | nil => simp [hasKey] at h
  | cons e rest ih =>
    by_cases hek : e.1.eqb key = true
    · exact ⟨[], e, rest, rfl, hek, by simp⟩
    · have h2 : hasKey rest key = true := by
        rcases List.any_eq_true.mp h with ⟨x, hx, hxk⟩
        rcases List.mem_cons.mp hx with h1 | h1
        · exfalso
          rw [h1] at hxk
          exact hek hxk
        · exact List.any_eq_true.mpr ⟨x, h1, hxk⟩
      rcases ih h2 with ⟨P, a, R, hsp, hak, hPk⟩
      refine ⟨e :: P, a, R, by rw [hsp]; rfl, hak, ?_⟩
      intro x hx
      rcases List.mem_cons.mp hx with h1 | h1
      · rw [h1]
        exact Bool.eq_false_iff.mpr hek
      · exact hPk x h1

theorem editStore_split {key value : Phoneme} {P R : Store} {a : Phoneme × Phoneme}
    (hP : ∀ x ∈ P, x.1.eqb key = false) (ha : a.1.eqb key = true) :
    editStore key value (P ++ a :: R) = P ++ (a.1, a.2.edit value) :: R := by
  induction P with
  | nil =>
    simp only [List.nil_append, editStore, if_pos ha]
  | cons p P ih =>
    have hp := hP p (List.mem_cons_self _ _)
    rw [List.cons_append]
    simp only [editStore, if_neg (not_true_of_false hp)]
    rw [ih (fun x hx => hP x (List.mem_cons_of_mem _ hx))]
    rfl

theorem editStore_cases {key value : Phoneme} {l : Store} {e : Phoneme × Phoneme}
    (h : e ∈ editStore key value l) :
    e ∈ l ∨ ∃ x ∈ l, x.1.eqb key = true ∧ e = (x.1, x.2.edit value) := by
  induction l with
  | nil => simp [editStore] at h
  | cons a rest ih =>
    by_cases hk : a.1.eqb key = true
    · simp only [editStore, if_pos hk] at h
      rcases List.mem_cons.mp h with h1 | h1
      · exact Or.inr ⟨a, List.mem_cons_self _ _, hk, h1⟩
      · exact Or.inl (List.mem_cons_of_mem _ h1)
    · simp only [editStore, if_neg hk] at h
      rcases List.mem_cons.mp h with h1 | h1
      · exact Or.inl (by rw [h1]; exact List.mem_cons_self _ _)
      · rcases ih h1 with h2 | ⟨x, hx, hxk, hxe⟩
        · exact Or.inl (List.mem_cons_of_mem _ h2)
        · exact Or.inr ⟨x, List.mem_cons_of_mem _ hx, hxk, hxe⟩

/-- Concrete phoneme with the single feature a, positive. -/
def phA : Phoneme := ⟨[("a", true)], by decide⟩

/-- Concrete phoneme with features a and x, both positive. -/
def phAX : Phoneme := ⟨[("a", true), ("x", true)], by decide⟩

/-- Concrete phoneme with the single feature b, positive. -/
def phB : Phoneme := ⟨[("b", true)], by decide⟩

/-- Concrete phoneme with features b and c, both positive. -/
def phBC : Phoneme := ⟨[("b", true), ("c", true)], by decide⟩

/-- Concrete phoneme with features b and d, both positive. -/
def phBD : Phoneme := ⟨[("b", true), ("d", true)], by decide⟩

/-- Concrete phoneme with the single feature c, positive. -/
def phC : Phoneme := ⟨[("c", true)], by decide⟩

/-- Concrete phoneme with features b, c and d, all positive. -/
def phBCD : Phoneme := ⟨[("b", true), ("c", true), ("d", true)], by decide⟩

/-- Concrete phoneme with features a and b, both positive. -/
def phAB : Phoneme := ⟨[("a", true), ("b", true)], by decide⟩

/-- Concrete phoneme with features a, b and c, all positive. -/
def phABC : Phoneme := ⟨[("a", true), ("b", true), ("c", true)], by decide⟩

/-- Concrete phoneme for +voice. -/
def phV : Phoneme := ⟨[("voice", true)], by decide⟩

/-- Concrete phoneme for -voice. -/
def phVneg : Phoneme := ⟨[("voice", false)], by decide⟩

/-- Concrete phoneme for +nasal. -/
def phN : Phoneme := ⟨[("nasal", true)], by decide⟩

/-- Concrete phoneme for +voice +labial. -/
def phVL : Phoneme := ⟨[("voice", true), ("labial", true)], by decide⟩

/-- Concrete phoneme for +nasal. Used as a symbol-table entry. -/
def phNas : Phoneme := ⟨[("nasal", true)], by decide⟩

/-- Concrete delta phoneme for -nasal +velar: its nasal feature conflicts with
phNas, its velar feature does not. -/
def phDelta : Phoneme := ⟨[("nasal", false), ("velar", true)], by decide⟩

/-- Concrete phoneme for +nasal +low. -/
def phNL : Phoneme := ⟨[("nasal", true), ("low", true)], by decide⟩

/-- C2, counterexample: merging the delta -nasal +velar into the stored phoneme
+nasal conflicts on nasal; contrary to the claim, the non-conflicting feature
velar of the same update is NOT applied: the whole update is skipped and the
stored phoneme is returned unchanged, with velar still absent. -/
theorem claim_C2_counterexample :
    Phoneme.contradicts phNas phDelta = true ∧
    lookupF phDelta.features "velar" = some true ∧
    Phoneme.edit phNas phDelta = phNas ∧
    lookupF (Phoneme.edit phNas phDelta).features "velar" = none := by
  decide

/-- C2, amended: when a delta phoneme contradicts the stored phoneme,
Phoneme.edit skips the entire update: a warning is reported and the stored
phoneme is left completely unchanged, so the non-conflicting features of the
delta are not applied either. -/
theorem claim_C2_amended (p q : Phoneme) (h : p.contradicts q = true) :
    p.edit q = p := by
  simp [Phoneme.edit, h]

/-- C2, witness for the amended claim at the concrete conflicting update. -/
theorem claim_C2_witness :
    Phoneme.edit phNas phDelta = phNas :=
  claim_C2_amended phNas phDelta (by decide)

/-- C3: if the antecedent contradicts the consequent, add_constraint rejects
the whole assertion and leaves the implication store completely unchanged, for
every store state; in particular a self-contradicting rule never enters. -/
theorem claim_C3_reject_contradiction (key value : Phoneme) (cs : Store)
    (h : key.contradicts value = true) : add_constraint key value cs = cs := by
  simp [add_constraint, h]

/-- C3, witness: the self-contradicting assertion +voice implies -voice is
rejected and the empty store stays empty. -/
theorem claim_C3_witness :
    add_constraint phV phVneg [] = [] :=
  claim_C3_reject_contradiction phV phVneg [] (by decide)

/-- C7: the subset relation of Phoneme.issubset (Phoneme.__le__) is a partial
order on phonemes: reflexive, antisymmetric up to Phoneme.__eq__, and
transitive. -/
theorem claim_C7_partial_order (A B C : Phoneme) :
    A.le A = true ∧
    (A.le B = true → B.le A = true → A.eqb B = true) ∧
    (A.le B = true → B.le C = true → A.le C = true) :=
  ⟨Phoneme.le_refl A,
   fun h1 h2 => Phoneme.le_antisymm_eqb h1 h2,
   fun h1 h2 => Phoneme.le_trans h1 h2⟩

/-- C7, witness: transitivity and antisymmetry applied at concrete phonemes. -/
theorem claim_C7_witness :
    Phoneme.le phA phABC = true ∧ Phoneme.eqb phAB phAB = true :=
  ⟨(claim_C7_partial_order phA phAB phABC).2.2 (by decide) (by decide),
   (claim_C7_partial_order phAB phAB phAB).2.1 (by decide) (by decide)⟩

/-- C8: Phoneme.contradicts holds exactly when some feature carries opposite
signs in both phonemes, and it is symmetric. -/
theorem claim_C8_contradicts (p q : Phoneme) :
    (p.contradicts q = true ↔
      ∃ f s t, lookupF p.features f = some s ∧ lookupF q.features f = some t ∧ s ≠ t) ∧
    p.contradicts q = q.contradicts p := by
  refine ⟨contradicts_iff, ?_⟩
  cases hpq : p.contradicts q with
  | true =>
    rcases contradicts_iff.mp hpq with ⟨f, s, t, hp, hq, hst⟩
    exact (contradicts_iff.mpr ⟨f, t, s, hq, hp, fun hh => hst hh.symm⟩).symm
  | false =>
    cases hqp : q.contradicts p with
    | true =>
      rcases contradicts_iff.mp hqp with ⟨f, s, t, hq2, hp2, hst⟩
      have hcontra := contradicts_iff.mpr ⟨f, t, s, hp2, hq2, fun hh => hst hh.symm⟩
      rw [hpq] at hcontra
      exact hcontra
    | false => rfl

/-- C8, witness: symmetry at a concrete opposite-signed pair. -/
theorem claim_C8_witness :
    Phoneme.contradicts phV phVneg = Phoneme.contradicts phVneg phV :=
  (claim_C8_contradicts phV phVneg).2

/-- C9: the homogeneous check Phoneme.contradicts agrees with the raw-map
check Phoneme.contradictsi whenever the raw signed-feature collection is
exactly another phoneme's feature map. -/
theorem claim_C9_contradictsi_agree (p q : Phoneme) :
    p.contradicts q = p.contradictsi q.features := rfl

/-- C10: the unchecked Phoneme.update is total and overwrites silently: after
updating, every feature of the other phoneme carries the other's sign, and
every feature absent from the other keeps its previous sign. -/
theorem claim_C10_update (A B : Phoneme) :
    (∀ f s, lookupF B.features f = some s → lookupF (A.update B).features f = some s) ∧
    (∀ f, lookupF B.features f = none → lookupF (A.update B).features f = lookupF A.features f) := by
  constructor
  · intro f s h
    exact lookupF_updF_of_some B.wf h
  · intro f h
    exact lookupF_updF_of_none h

/-- C10, witness: updating +nasal +low with -nasal +velar silently flips nasal
to the new sign and keeps the untouched feature low. -/
theorem claim_C10_witness :
    lookupF (Phoneme.update phNL phDelta).features "nasal" = some false ∧
    lookupF (Phoneme.update phNL phDelta).features "low" = lookupF phNL.features "low" :=
  ⟨(claim_C10_update phNL phDelta).1 "nasal" false (by decide),
   (claim_C10_update phNL phDelta).2 "low" (by decide)⟩

/-- C1, counterexample: a store reachable by three insertions into the empty
store violates the minimal-cover invariant.  Inserting (a implies b), then
(a x implies b c), then (a implies c) takes the merge branch on the last step
and leaves the rule (a x implies b c) dominated by the merged rule
(a implies b c). -/
theorem claim_C1_counterexample :
    ¬ MinimalCover
        (add_constraint phA phC (add_constraint phAX phBC (add_constraint phA phB []))) := by
  decide

/-- C1, amended: after an insertion whose antecedent does not equal (under
Phoneme.__eq__) any stored antecedent, a minimal store stays minimal; an
insertion that merges into an existing antecedent's consequent may instead
leave a dominated rule in the store. -/
theorem claim_C1_amended (key value : Phoneme) (cs : Store)
    (hmin : MinimalCover cs) (hkey : ∀ e ∈ cs, e.1.eqb key = false) :
    MinimalCover (add_constraint key value cs) := by
  by_cases hc : key.contradicts value = true
  · simpa [add_constraint, hc] using hmin
  · cases hs : (scanStore key value cs).1 with
    | false =>
      have hcond := not_true_of_false hs
      simp only [add_constraint, if_neg hc, if_neg hcond]
      rw [scan_minimal_break hmin hs]
      exact hmin
    | true =>
      have hprops := scan_true_mem hs
      have hk : hasKey (scanStore key value cs).2 key = false := by
        cases hkk : hasKey (scanStore key value cs).2 key with
        | false => rfl
        | true =>
          exfalso
          rcases List.any_eq_true.mp hkk with ⟨x, hx, hxk⟩
          have hxf := hkey x (scan_mem hx)
          rw [hxf] at hxk
          exact absurd hxk (by simp)
      simp only [add_constraint, if_neg hc, if_pos hs, if_neg (not_true_of_false hk)]
      unfold MinimalCover
      rw [List.pairwise_append]
      refine ⟨List.Pairwise.sublist (scan_sublist key value cs) hmin, by simp, ?_⟩
      intro a ha b hb
      simp at hb
      subst hb
      have hpa := hprops a ha
      exact ⟨hpa.1, hpa.2⟩

/-- C1, witness for the amended claim: inserting a fresh antecedent into a
minimal one-rule store keeps the store minimal. -/
theorem claim_C1_witness :
    MinimalCover (add_constraint phAX phBC [(phA, phB)]) :=
  claim_C1_amended phAX phBC [(phA, phB)] (by decide) (by decide)

/-- C4, counterexample: a store reachable by three insertions contains a rule
subsuming the new assertion (a x implies b c d), so the insertion aborts, yet
the store still changes: the dominated rule scanned before the subsuming rule
is deleted and not restored. -/
theorem claim_C4_counterexample :
    (∃ e ∈ add_constraint phA phC (add_constraint phA phBD (add_constraint phAX phBC [])),
       e.1.le phAX = true ∧ phBCD.le e.2 = true) ∧
    add_constraint phAX phBCD
        (add_constraint phA phC (add_constraint phA phBD (add_constraint phAX phBC []))) ≠
      add_constraint phA phC (add_constraint phA phBD (add_constraint phAX phBC [])) := by
  decide

/-- C4, amended: if additionally the store satisfies the minimal-cover
invariant, then whenever some stored rule has a broader-or-equal antecedent
and a stronger-or-equal consequent, the insertion aborts and the store is
completely unchanged. -/
theorem claim_C4_amended (key value : Phoneme) (cs : Store) (e : Phoneme × Phoneme)
    (hmin : MinimalCover cs) (he : e ∈ cs)
    (h1 : e.1.le key = true) (h2 : value.le e.2 = true) :
    add_constraint key value cs = cs := by
  by_cases hc : key.contradicts value = true
  · simp [add_constraint, hc]
  · have hf : (scanStore key value cs).1 = false := scan_false_of_subsumer he h1 h2
    simp only [add_constraint, if_neg hc, if_neg (not_true_of_false hf)]
    exact scan_minimal_break hmin hf

/-- C4, witness: the concrete example of the claim.  After inserting
(voice implies nasal), inserting (voice labial implies nasal) is subsumed and
the store keeps exactly the first rule. -/
theorem claim_C4_witness :
    add_constraint phVL phN (add_constraint phV phN []) = add_constraint phV phN [] := by
  have hst : add_constraint phV phN [] = [(phV, phN)] := by decide
  rw [hst]
  exact claim_C4_amended phVL phN [(phV, phN)] (phV, phN)
    (by decide) (by decide) (by decide) (by decide)

/-- C5, counterexample: re-inserting the exact duplicate of a stored rule.
The stored rule satisfies the deletion condition (antecedent at most A and
consequent C at most the new consequent), yet it is not deleted: the abort
check fires first and keeps it. -/
theorem claim_C5_counterexample :
    Phoneme.le phV phV = true ∧ Phoneme.le phN phN = true ∧
    (phV, phN) ∈ add_constraint phV phN (add_constraint phV phN []) := by
  decide

/-- C5, amended: provided the new rule does not contradict itself and no
stored rule subsumes it (no stored rule has a broader-or-equal antecedent and
a stronger-or-equal consequent, which would abort the scan first), every
stored rule dominated by the new rule is deleted by the insertion, however
many there are. -/
theorem claim_C5_amended (key value : Phoneme) (cs : Store) (e : Phoneme × Phoneme)
    (hcon : key.contradicts value = false)
    (hnos : ∀ x ∈ cs, ¬(x.1.le key = true ∧ value.le x.2 = true))
    (he : e ∈ cs) (h1 : key.le e.1 = true) (h2 : e.2.le value = true) :
    e ∉ add_constraint key value cs := by
  intro hin
  have ht : (scanStore key value cs).1 = true := scan_true_of_no_subsumer hnos
  have hprops := scan_true_mem ht
  simp only [add_constraint, if_neg (not_true_of_false hcon), if_pos ht] at hin
  by_cases hk : hasKey (scanStore key value cs).2 key = true
  · rw [if_pos hk] at hin
    rcases editStore_cases hin with hin1 | ⟨x, hx, hxk, hxe⟩
    · have hb := (hprops e hin1).2
      have hbt : (key.le e.1 && e.2.le value) = true := band_iff.mpr ⟨h1, h2⟩
      rw [hbt] at hb
      exact absurd hb (by simp)
    · subst hxe
      by_cases hcx : x.2.contradicts value = true
      · have hex : x.2.edit value = x.2 := by simp [Phoneme.edit, hcx]
        rw [hex] at he h1 h2
        have hb := (hprops x hx).2
        have hbt : (key.le x.1 && x.2.le value) = true := band_iff.mpr ⟨h1, h2⟩
        rw [hbt] at hb
        exact absurd hb (by simp)
      · have hex : x.2.edit value = x.2.update value := by simp [Phoneme.edit, hcx]
        have hv : value.le ((x.1, x.2.edit value).2) = true := by
          rw [hex]
          exact le_update_self x.2 value
        exact hnos _ he ⟨le_of_eqb hxk, hv⟩
  · rw [if_neg hk] at hin
    rcases List.mem_append.mp hin with hin1 | hin1
    · have hb := (hprops e hin1).2
      have hbt : (key.le e.1 && e.2.le value) = true := band_iff.mpr ⟨h1, h2⟩
      rw [hbt] at hb
      exact absurd hb (by simp)
    · simp at hin1
      subst hin1
      exact hnos _ he ⟨Phoneme.le_refl key, Phoneme.le_refl value⟩

/-- C5, witness: the concrete eviction example of the claim.  The stored rule
(voice labial implies nasal) is dominated by the new rule
(voice implies nasal) and is evicted. -/
theorem claim_C5_witness :
    (phVL, phN) ∉ add_constraint phV phN [(phVL, phN)] :=
  claim_C5_amended phV phN [(phVL, phN)] (phVL, phN)
    (by decide) (by decide) (by decide) (by decide) (by decide)

/-- C6: inserting the identical (antecedent, consequent) pair twice in a row
leaves the implication store identical to inserting it once, for every store
state: the exact-duplicate re-assertion is a no-op. -/
theorem claim_C6_duplicate (key value : Phoneme) (cs : Store) :
    add_constraint key value (add_constraint key value cs) = add_constraint key value cs := by
  by_cases hc : key.contradicts value = true
  · simp [add_constraint, hc]
  · cases hs : (scanStore key value cs).1 with
    | false =>
      have hcond := not_true_of_false hs
      have hinner : add_constraint key value cs = (scanStore key value cs).2 := by
        simp only [add_constraint, if_neg hc, if_neg hcond]
      rw [hinner]
      have hre := scan_break_rescan hs
      simp only [add_constraint, if_neg hc, hre]
      simp
    | true =>
      have hprops := scan_true_mem hs
      by_cases hk : hasKey (scanStore key value cs).2 key = true
      · rcases hasKey_split hk with ⟨P, a, R, hsplit, ha, hP⟩
        have hinner : add_constraint key value cs = P ++ (a.1, a.2.edit value) :: R := by
          simp only [add_constraint, if_neg hc, if_pos hs, if_pos hk]
          rw [hsplit]
          exact editStore_split hP ha
        have hmemprops : ∀ e ∈ P ++ a :: R,
            (e.1.le key && value.le e.2) = false ∧ (key.le e.1 && e.2.le value) = false := by
          rw [← hsplit]
          exact hprops
        rw [hinner]
        by_cases hca : a.2.contradicts value = true
        · have hea : a.2.edit value = a.2 := by simp [Phoneme.edit, hca]
          rw [hea]
          have heta : ((a.1, a.2) : Phoneme × Phoneme) = a := rfl
          rw [heta, ← hsplit]
          have hstable := scan_stable hprops
          simp only [add_constraint, if_neg hc, hstable]
          have hk2 : hasKey (scanStore key value cs).2 key = true := hk
          simp only [if_pos hk2]
          rw [hsplit, editStore_split hP ha, hea, heta]
          simp
        · have hea : a.2.edit value = a.2.update value := by simp [Phoneme.edit, hca]
          rw [hea]
          have hPf : ∀ e ∈ P,
              (e.1.le key && value.le e.2) = false ∧ (key.le e.1 && e.2.le value) = false :=
            fun e hem => hmemprops e (List.mem_append_left _ hem)
          have h2a : ((a.1, a.2.update value).1.le key
              && value.le ((a.1, a.2.update value)).2) = true :=
            band_iff.mpr ⟨le_of_eqb ha, le_update_self a.2 value⟩
          have hbreak : scanStore key value (P ++ (a.1, a.2.update value) :: R) =
              (false, P ++ (a.1, a.2.update value) :: R) :=
            scan_upto_break hPf h2a
          simp only [add_constraint, if_neg hc, hbreak]
          simp
      · have hinner : add_constraint key value cs = (scanStore key value cs).2 ++ [(key, value)] := by
          simp only [add_constraint, if_neg hc, if_pos hs, if_neg hk]
        rw [hinner]
        have h2a : (((key, value) : Phoneme × Phoneme).1.le key
            && value.le (((key, value) : Phoneme × Phoneme)).2) = true :=
          band_iff.mpr ⟨Phoneme.le_refl key, Phoneme.le_refl value⟩
        have hbreak : scanStore key value ((scanStore key value cs).2 ++ [(key, value)]) =
            (false, (scanStore key value cs).2 ++ [(key, value)]) :=
          scan_upto_break hprops h2a
        simp only [add_constraint, if_neg hc, hbreak]
        simp
